import Mathlib

/-!
Verification of a textual include-expansion preprocessor (src/main.cpp).

The program walks a source file line by line; lines matching an
`#include "name"` or `#include <name>` pattern (detected with
`std::regex_search`, i.e. an unanchored substring search) are replaced by
the recursively expanded contents of the resolved file; all other lines
are copied verbatim.  This file gives a shallow embedding of that program:

* filesystem paths are plain strings with `/` separators; the filesystem
  is an association list from path to raw content, plus a separate list of
  paths that pass the `std::filesystem::exists` test (so a path may exist
  but fail to open, as the code distinguishes the two);
* `std::getline` is modelled by `splitLinesCpp`; writing a line with
  `<< line << endl` is modelled by `joinLines`, which terminates every
  line with exactly one newline;
* the unbounded C++ recursion is indexed by a fuel parameter; a result
  whose `fuelOk` field is `true` was computed without ever exhausting the
  fuel and hence coincides with the behaviour of the C++ program.
-/

/-- One character of the ECMAScript `\s` class used by `std::regex`. -/
def isWs (c : Char) : Bool :=
  c = ' ' || c = '\t' || c = '\n' || c = '\x0b' || c = '\x0c' || c = '\r'

/-- The literal `include` appearing in both directive patterns. -/
def includeChars : List Char := ['i', 'n', 'c', 'l', 'u', 'd', 'e']

/-- Strip an expected literal from the front of a character list. -/
def dropLit : List Char → List Char → Option (List Char)
  | [], cs => some cs
  | _ :: _, [] => none
  | l :: ls, x :: xs => if x = l then dropLit ls xs else none

/-- After a `#` has been seen, try to complete a directive match:
optional whitespace, the literal `include`, optional whitespace, the
opening delimiter `o`, a (possibly empty) run of characters other than
the closing delimiter `c`, and `c` itself.  Returns the captured name.
Mirrors the backtracking-free completion of the regexes at
src/main.cpp:49-51. -/
def matchAfterHash (o c : Char) (cs : List Char) : Option (List Char) :=
  match dropLit includeChars (cs.dropWhile isWs) with
  | none => none
  | some cs2 =>
    match cs2.dropWhile isWs with
    | [] => none
    | d :: cs4 =>
      if d = o then
        match cs4.dropWhile (fun x => x ≠ c) with
        | [] => none
        | _ :: _ => some (cs4.takeWhile (fun x => x ≠ c))
      else none

/-- Unanchored scan of a line for a directive pattern, as performed by
`std::regex_search`: starting positions are tried left to right, so the
leftmost `#` that completes the pattern determines the captured name. -/
def scanFor (o c : Char) : List Char → Option (List Char)
  | [] => none
  | x :: xs =>
    if x = '#' then
      match matchAfterHash o c xs with
      | some name => some name
      | none => scanFor o c xs
    else scanFor o c xs

/-- Classification of one input line. -/
inductive Directive where
  | localInc (name : String)
  | globalInc (name : String)
  | plainText
deriving DecidableEq

/-- Classify a line exactly as the loop body at src/main.cpp:63-130 does:
first `regex_search` with the local pattern, then with the global
pattern, otherwise the line is plain text. -/
def classify (line : String) : Directive :=
  match scanFor '"' '"' line.data with
  | some n => Directive.localInc (String.mk n)
  | none =>
    match scanFor '<' '>' line.data with
    | some n => Directive.globalInc (String.mk n)
    | none => Directive.plainText

/-- `std::getline` on a whole file content: lines are separated by `'\n'`,
a final line without a terminator is still produced, and an empty file
produces no lines. -/
def splitLinesC : List Char → List (List Char)
  | [] => []
  | c :: cs =>
    if c = '\n' then [] :: splitLinesC cs
    else
      match splitLinesC cs with
      | [] => [[c]]
      | l :: ls => (c :: l) :: ls

/-- String-level wrapper of `splitLinesC`. -/
def splitLinesCpp (s : String) : List String :=
  (splitLinesC s.data).map (fun l => String.mk l)

/-- Writing a list of lines with `output << line << endl`: every line is
terminated by exactly one newline. -/
def joinLinesC (ls : List (List Char)) : List Char :=
  ls.foldr (fun l acc => l ++ '\n' :: acc) []

/-- String-level wrapper of `joinLinesC`. -/
def joinLines (ls : List String) : String :=
  String.mk (joinLinesC (ls.map String.data))

/-- `path::parent_path` for plain `/`-separated relative paths:
everything before the last separator, `""` when there is none. -/
def parentPath (p : String) : String :=
  String.mk (((p.data.reverse.dropWhile (fun c => c ≠ '/')).reverse).dropLast)

/-- `path::filename`: everything after the last separator. -/
def fileName (p : String) : String :=
  String.mk ((p.data.reverse.takeWhile (fun c => c ≠ '/')).reverse)

/-- `operator/` on paths: an absolute right-hand side replaces the left,
an empty left-hand side yields the right, otherwise the two are glued
with a single separator. -/
def joinPath (d p : String) : String :=
  match p.data with
  | '/' :: _ => p
  | _ => if d = "" then p else d ++ "/" ++ p

/-- The filesystem a run observes: `files` maps an openable path to its
raw content; `present` lists the paths for which `filesystem::exists`
answers true (kept separate because the code distinguishes the existence
test from an actual successful open). -/
structure FS where
  files : List (String × String)
  present : List String
deriving DecidableEq

/-- Opening a path with `ifstream` : the empty path never opens. -/
def FS.readFile (fs : FS) (p : String) : Option String :=
  if p = "" then none
  else (fs.files.find? (fun e => e.1 = p)).map (fun e => e.2)

/-- `filesystem::exists`. -/
def FS.pathExists (fs : FS) (p : String) : Bool :=
  fs.present.any (fun q => q = p)

/-- The loop at src/main.cpp:73-79 and 104-110: walk the search
directories in order and return the first candidate `dir / name` that
exists. -/
def searchDirs (fs : FS) (name : String) : List String → Option String
  | [] => none
  | d :: ds =>
    let fp := joinPath d name
    if fs.pathExists fp then some fp else searchDirs fs name ds

/-- Resolution of a `Local(name)` directive (src/main.cpp:63-89): the
candidate relative to the including file's directory is tried first, the
search directories only when it does not exist. -/
def resolveLocal (fs : FS) (curDir name : String) (dirs : List String) : Option String :=
  let fp := joinPath curDir name
  if fs.pathExists fp then some fp else searchDirs fs name dirs

/-- Resolution of a `Global(name)` directive (src/main.cpp:98-110): only
the search directories are consulted. -/
def resolveGlobal (fs : FS) (name : String) (dirs : List String) : Option String :=
  searchDirs fs name dirs

/-- Spec-level description of resolution: the first path of a candidate
list that exists. -/
def firstExisting (fs : FS) : List String → Option String
  | [] => none
  | p :: ps => if fs.pathExists p then some p else firstExisting fs ps

/-- The diagnostic line printed at src/main.cpp:40-42, 83-85 and 114-116. -/
def diagMsg (name file : String) (line : Nat) : String :=
  "unknown include file " ++ name ++ " at file " ++ file ++ " at line " ++ toString line

/-- Observable outcome of one `ProcessInclude` call: the lines it
appended to the output file, the diagnostic lines it printed to stdout,
its boolean return value, and whether the computation ever ran out of
fuel (`fuelOk = false` marks a model artefact, not program behaviour). -/
structure Result where
  out : List String
  diags : List String
  ok : Bool
  fuelOk : Bool
deriving DecidableEq

/-- The body of the `while (getline(...))` loop of `ProcessInclude`
(src/main.cpp:58-131), parameterised by the recursive call `step` used
for nested includes.  `curFile` is the file being read, `n` the 1-based
number of the first line of `lines`. -/
def processLinesWith (step : String → String → Nat → Result)
    (fs : FS) (dirs : List String) (curFile : String) :
    List String → Nat → Result
  | [], _ => ⟨[], [], true, true⟩
  | line :: rest, n =>
    match classify line with
    | Directive.plainText =>
      let r := processLinesWith step fs dirs curFile rest (n + 1)
      ⟨line :: r.out, r.diags, r.ok, r.fuelOk⟩
    | Directive.localInc name =>
      match resolveLocal fs (parentPath curFile) name dirs with
      | none => ⟨[], [diagMsg name curFile n], false, true⟩
      | some fp =>
        let r := step fp curFile n
        if r.ok then
          let r2 := processLinesWith step fs dirs curFile rest (n + 1)
          ⟨r.out ++ r2.out, r.diags ++ r2.diags, r2.ok, r.fuelOk && r2.fuelOk⟩
        else ⟨r.out, r.diags, false, r.fuelOk⟩
    | Directive.globalInc name =>
      match resolveGlobal fs name dirs with
      | none => ⟨[], [diagMsg name curFile n], false, true⟩
      | some fp =>
        let r := step fp curFile n
        if r.ok then
          let r2 := processLinesWith step fs dirs curFile rest (n + 1)
          ⟨r.out ++ r2.out, r.diags ++ r2.diags, r2.ok, r.fuelOk && r2.fuelOk⟩
        else ⟨r.out, r.diags, false, r.fuelOk⟩

/-- `ProcessInclude` (src/main.cpp:34-134).  Opening `curFile` fails when
it is not in the filesystem map; in that case the diagnostic naming the
file's basename and the referencing location is printed only when the
referencing file is non-empty (src/main.cpp:39-44).  The fuel bounds the
include-nesting depth the model can follow. -/
def ProcessInclude (fs : FS) (dirs : List String) :
    Nat → String → String → Nat → Result
  | 0, _, _, _ => ⟨[], [], false, false⟩
  | fuel + 1, curFile, srcFile, srcLine =>
    match fs.readFile curFile with
    | none =>
      ⟨[], if srcFile = "" then [] else [diagMsg (fileName curFile) srcFile srcLine],
        false, true⟩
    | some content =>
      processLinesWith (ProcessInclude fs dirs fuel) fs dirs curFile
        (splitLinesCpp content) 1

/-- Driver diagnostic printed at src/main.cpp:150. -/
def inputErrMsg (p : String) : String :=
  "Ошибка: Не удалось открыть входной файл: " ++ p

/-- Driver diagnostic printed at src/main.cpp:157. -/
def outputErrMsg (p : String) : String :=
  "Ошибка: Не удалось открыть выходной файл: " ++ p

/-- Observable outcome of a `Preprocess` run: the final content of the
output file, whether the output file was opened (and hence truncated),
whether the expander was invoked, the stdout lines, the boolean result,
and the fuel marker inherited from the expander. -/
structure DriverResult where
  outContent : String
  outTouched : Bool
  invoked : Bool
  diags : List String
  ok : Bool
  fuelOk : Bool
deriving DecidableEq

/-- `Preprocess` (src/main.cpp:145-163).  The input file is probed first;
only if it opens is the output file opened (truncating it), and only if
both succeed is `ProcessInclude` invoked with an empty referencing
context.  `prevOut` is the content the output file had before the run;
`outWritable` tells whether opening the output file succeeds. -/
def Preprocess (fs : FS) (outWritable : Bool) (fuel : Nat) (prevOut : String)
    (input_file output_file : String) (dirs : List String) : DriverResult :=
  match fs.readFile input_file with
  | none => ⟨prevOut, false, false, [inputErrMsg input_file], false, true⟩
  | some _ =>
    if outWritable then
      let r := ProcessInclude fs dirs fuel input_file "" 0
      ⟨joinLines r.out, true, true, r.diags, r.ok, r.fuelOk⟩
    else ⟨prevOut, false, false, [outputErrMsg output_file], false, true⟩

/-! ## Spec-level definitions used to state the claims -/

/-- A run of characters all in the `\s` class. -/
def WsList (w : List Char) : Prop := ∀ x ∈ w, isWs x = true

/-- The directive pattern with delimiters `o`/`c` occurs somewhere in the
line: a `#`, optional whitespace, the literal `include`, optional
whitespace, the opening delimiter, a run of characters free of the
closing delimiter, and the closing delimiter, with arbitrary text before
and after.  This is the set of lines `std::regex_search` accepts for the
patterns of src/main.cpp:49-51. -/
def DirectiveSomewhere (o c : Char) (cs : List Char) : Prop :=
  ∃ pre w1 w2 name post,
    cs = pre ++ '#' :: (w1 ++ (includeChars ++ (w2 ++ o :: (name ++ c :: post)))) ∧
    WsList w1 ∧ WsList w2 ∧ ∀ x ∈ name, x ≠ c

/-- A file content with its line terminators normalized: every line ends
in exactly one newline, including a final line that lacked one. -/
def specNormalizeC (cs : List Char) : List Char :=
  if cs = [] then []
  else if cs.getLast? = some '\n' then cs
  else cs ++ ['\n']

/-- String-level wrapper of `specNormalizeC`. -/
def specNormalize (s : String) : String :=
  String.mk (specNormalizeC s.data)

/-! ## Helper lemmas -/

theorem searchDirs_eq_firstExisting (fs : FS) (name : String) (dirs : List String) :
    searchDirs fs name dirs =
      firstExisting fs (dirs.map (fun d => joinPath d name)) := by
  induction dirs with
  | nil => rfl
  | cons d ds ih => simp only [searchDirs, firstExisting, List.map_cons, ih]

theorem searchDirs_eq_none (fs : FS) (name : String) (dirs : List String)
    (h : ∀ d ∈ dirs, fs.pathExists (joinPath d name) = false) :
    searchDirs fs name dirs = none := by
  induction dirs with
  | nil => rfl
  | cons d ds ih =>
    simp only [searchDirs]
    rw [h d (by simp)]
    simp only [Bool.false_eq_true, if_false]
    exact ih (fun d' hd' => h d' (by simp [hd']))

/-! ## Claims -/

/-- C3: a `Local(name)` directive first tries `name` relative to the
including file's directory; only when that candidate does not exist are
the search directories walked in order, and the resolved file is the
first existing candidate of the list (relative candidate first, then the
search directories in their given order). -/
theorem local_resolution_order (fs : FS) (curDir name : String) (dirs : List String)
    (h : fs.pathExists (joinPath curDir name) = true) :
    resolveLocal fs curDir name dirs = some (joinPath curDir name) ∧
    ∀ cd nm ds, resolveLocal fs cd nm ds =
      firstExisting fs (joinPath cd nm :: ds.map (fun d => joinPath d nm)) := by
  constructor
  · simp only [resolveLocal, h, if_true]
  · intro cd nm ds
    simp only [resolveLocal, firstExisting, searchDirs_eq_firstExisting]

theorem local_resolution_order_witness :
    (FS.pathExists ⟨[], ["d/x.h", "s/x.h"]⟩ (joinPath "d" "x.h") = true) ∧
    resolveLocal ⟨[], ["d/x.h", "s/x.h"]⟩ "d" "x.h" ["s"] = some (joinPath "d" "x.h") := by
  refine ⟨by decide, ?_⟩
  exact (local_resolution_order ⟨[], ["d/x.h", "s/x.h"]⟩ "d" "x.h" ["s"] (by decide)).1

/-- C4: a `Global(name)` directive consults only the search directories,
in order, and never the including file's directory: its resolution equals
the first existing candidate among `dir / name` for the given
directories, and when no search directory holds the name the directive
fails with a diagnostic even though the name may exist relative to the
including file's directory. -/
theorem global_resolution_order (fs : FS) (dirs : List String) (fuel : Nat)
    (curFile line name : String) (rest : List String) (n : Nat)
    (hc : classify line = Directive.globalInc name)
    (hn : ∀ d ∈ dirs, fs.pathExists (joinPath d name) = false) :
    (∀ nm ds, resolveGlobal fs nm ds =
      firstExisting fs (ds.map (fun d => joinPath d nm))) ∧
    resolveGlobal fs name dirs = none ∧
    processLinesWith (ProcessInclude fs dirs fuel) fs dirs curFile (line :: rest) n =
      ⟨[], [diagMsg name curFile n], false, true⟩ := by
  have hres : resolveGlobal fs name dirs = none := searchDirs_eq_none fs name dirs hn
  refine ⟨fun nm ds => searchDirs_eq_firstExisting fs nm ds, hres, ?_⟩
  simp only [processLinesWith, hc, hres]

theorem global_resolution_order_witness :
    processLinesWith
        (ProcessInclude ⟨[("d/x.h", "text")], ["d/x.h"]⟩ ["s"] 3)
        ⟨[("d/x.h", "text")], ["d/x.h"]⟩ ["s"] "d/main.cpp"
        ["#include <x.h>"] 1 =
      ⟨[], [diagMsg "x.h" "d/main.cpp" 1], false, true⟩ :=
  (global_resolution_order ⟨[("d/x.h", "text")], ["d/x.h"]⟩ ["s"] 3 "d/main.cpp"
    "#include <x.h>" "x.h" [] 1 (by decide) (by decide)).2.2

/-- C5: expansion is depth-first and eager.  For a plain line, the line
itself is appended and then the rest of the file is processed; for a
resolved directive line whose recursive expansion succeeds, the entire
expanded content of the included file is appended to the output before
the following lines of the including file contribute anything, and the
two output blocks are concatenated in order, never reordered or
deduplicated. -/
theorem expansion_depth_first (fs : FS) (dirs : List String) (fuel : Nat)
    (curFile line : String) (rest : List String) (n : Nat) :
    (classify line = Directive.plainText →
      processLinesWith (ProcessInclude fs dirs fuel) fs dirs curFile (line :: rest) n =
        ⟨line :: (processLinesWith (ProcessInclude fs dirs fuel) fs dirs curFile rest (n + 1)).out,
          (processLinesWith (ProcessInclude fs dirs fuel) fs dirs curFile rest (n + 1)).diags,
          (processLinesWith (ProcessInclude fs dirs fuel) fs dirs curFile rest (n + 1)).ok,
          (processLinesWith (ProcessInclude fs dirs fuel) fs dirs curFile rest (n + 1)).fuelOk⟩) ∧
    (∀ name fp, classify line = Directive.localInc name →
      resolveLocal fs (parentPath curFile) name dirs = some fp →
      (ProcessInclude fs dirs fuel fp curFile n).ok = true →
      processLinesWith (ProcessInclude fs dirs fuel) fs dirs curFile (line :: rest) n =
        ⟨(ProcessInclude fs dirs fuel fp curFile n).out ++
            (processLinesWith (ProcessInclude fs dirs fuel) fs dirs curFile rest (n + 1)).out,
          (ProcessInclude fs dirs fuel fp curFile n).diags ++
            (processLinesWith (ProcessInclude fs dirs fuel) fs dirs curFile rest (n + 1)).diags,
          (processLinesWith (ProcessInclude fs dirs fuel) fs dirs curFile rest (n + 1)).ok,
          (ProcessInclude fs dirs fuel fp curFile n).fuelOk &&
            (processLinesWith (ProcessInclude fs dirs fuel) fs dirs curFile rest (n + 1)).fuelOk⟩) ∧
    (∀ name fp, classify line = Directive.globalInc name →
      resolveGlobal fs name dirs = some fp →
      (ProcessInclude fs dirs fuel fp curFile n).ok = true →
      processLinesWith (ProcessInclude fs dirs fuel) fs dirs curFile (line :: rest) n =
        ⟨(ProcessInclude fs dirs fuel fp curFile n).out ++
            (processLinesWith (ProcessInclude fs dirs fuel) fs dirs curFile rest (n + 1)).out,
          (ProcessInclude fs dirs fuel fp curFile n).diags ++
            (processLinesWith (ProcessInclude fs dirs fuel) fs dirs curFile rest (n + 1)).diags,
          (processLinesWith (ProcessInclude fs dirs fuel) fs dirs curFile rest (n + 1)).ok,
          (ProcessInclude fs dirs fuel fp curFile n).fuelOk &&
            (processLinesWith (ProcessInclude fs dirs fuel) fs dirs curFile rest (n + 1)).fuelOk⟩) := by
  refine ⟨fun hp => ?_, fun name fp hc hr hok => ?_, fun name fp hc hr hok => ?_⟩
  · simp only [processLinesWith, hp]
  · simp only [processLinesWith, hc, hr, hok, if_true]
  · simp only [processLinesWith, hc, hr, hok, if_true]

/-- Fixture: a two-file tree where `a.cpp` includes `b.h` next to it. -/
def fsA : FS :=
  ⟨[("a.cpp", "top\n#include \"b.h\"\ntail\n"), ("b.h", "from b\n")], ["b.h"]⟩

theorem expansion_depth_first_witness :
    processLinesWith (ProcessInclude fsA [] 3) fsA [] "a.cpp"
        ["#include \"b.h\"", "tail"] 2 =
      ⟨["from b", "tail"], [], true, true⟩ := by
  rw [(expansion_depth_first fsA [] 3 "a.cpp" "#include \"b.h\"" ["tail"] 2).2.1
    "b.h" "b.h" (by decide) (by decide) (by decide)]
  decide

/-- C6: when the directive on the current line fails — because it does
not resolve, or because the recursive expansion of the resolved file
fails — processing stops at that line: the lines after it contribute
nothing, the call reports failure, and the output produced so far by the
failed recursive call is kept as is (no rollback). -/
theorem failure_short_circuit (fs : FS) (dirs : List String) (fuel : Nat)
    (curFile line : String) (rest : List String) (n : Nat) :
    (∀ name, classify line = Directive.localInc name →
      resolveLocal fs (parentPath curFile) name dirs = none →
      processLinesWith (ProcessInclude fs dirs fuel) fs dirs curFile (line :: rest) n =
        ⟨[], [diagMsg name curFile n], false, true⟩) ∧
    (∀ name fp, classify line = Directive.localInc name →
      resolveLocal fs (parentPath curFile) name dirs = some fp →
      (ProcessInclude fs dirs fuel fp curFile n).ok = false →
      processLinesWith (ProcessInclude fs dirs fuel) fs dirs curFile (line :: rest) n =
        ⟨(ProcessInclude fs dirs fuel fp curFile n).out,
          (ProcessInclude fs dirs fuel fp curFile n).diags, false,
          (ProcessInclude fs dirs fuel fp curFile n).fuelOk⟩) ∧
    (∀ name, classify line = Directive.globalInc name →
      resolveGlobal fs name dirs = none →
      processLinesWith (ProcessInclude fs dirs fuel) fs dirs curFile (line :: rest) n =
        ⟨[], [diagMsg name curFile n], false, true⟩) ∧
    (∀ name fp, classify line = Directive.globalInc name →
      resolveGlobal fs name dirs = some fp →
      (ProcessInclude fs dirs fuel fp curFile n).ok = false →
      processLinesWith (ProcessInclude fs dirs fuel) fs dirs curFile (line :: rest) n =
        ⟨(ProcessInclude fs dirs fuel fp curFile n).out,
          (ProcessInclude fs dirs fuel fp curFile n).diags, false,
          (ProcessInclude fs dirs fuel fp curFile n).fuelOk⟩) := by
  refine ⟨fun name hc hr => ?_, fun name fp hc hr hok => ?_,
    fun name hc hr => ?_, fun name fp hc hr hok => ?_⟩
  · simp only [processLinesWith, hc, hr]
  · simp only [processLinesWith, hc, hr, hok, Bool.false_eq_true, if_false]
  · simp only [processLinesWith, hc, hr]
  · simp only [processLinesWith, hc, hr, hok, Bool.false_eq_true, if_false]

/-- Fixture: `a.cpp` includes `b.h`, whose own include of `missing.h`
fails; `b.h` has appended one line before failing. -/
def fsB : FS :=
  ⟨[("a.cpp", "top\n#include \"b.h\"\ntail\n"),
    ("b.h", "from b\n#include \"missing.h\"\nafter\n")], ["b.h"]⟩

theorem failure_short_circuit_witness :
    processLinesWith (ProcessInclude fsB [] 3) fsB [] "a.cpp"
        ["#include \"b.h\"", "tail"] 2 =
      ⟨["from b"], [diagMsg "missing.h" "b.h" 2], false, true⟩ := by
  rw [(failure_short_circuit fsB [] 3 "a.cpp" "#include \"b.h\"" ["tail"] 2).2.1
    "b.h" "b.h" (by decide) (by decide) (by decide)]
  decide

/-- C7: the driver returns failure without invoking the expander when the
input file cannot be opened (and then the output file is not touched at
all) or when the output file cannot be opened for writing; when both
open, the output file is truncated — its final content is exactly what
the expander appends, the previous content being discarded — and the
expander is invoked. -/
theorem driver_open_failures (fs : FS) (outW : Bool) (fuel : Nat)
    (prev inF outF : String) (dirs : List String) :
    (fs.readFile inF = none →
      Preprocess fs outW fuel prev inF outF dirs =
        ⟨prev, false, false, [inputErrMsg inF], false, true⟩) ∧
    (∀ c, fs.readFile inF = some c → outW = false →
      Preprocess fs outW fuel prev inF outF dirs =
        ⟨prev, false, false, [outputErrMsg outF], false, true⟩) ∧
    (∀ c, fs.readFile inF = some c → outW = true →
      Preprocess fs outW fuel prev inF outF dirs =
        ⟨joinLines (ProcessInclude fs dirs fuel inF "" 0).out, true, true,
          (ProcessInclude fs dirs fuel inF "" 0).diags,
          (ProcessInclude fs dirs fuel inF "" 0).ok,
          (ProcessInclude fs dirs fuel inF "" 0).fuelOk⟩) := by
  refine ⟨fun h => ?_, fun c h hw => ?_, fun c h hw => ?_⟩
  · simp only [Preprocess, h]
  · simp only [Preprocess, h, hw, Bool.false_eq_true, if_false]
  · simp only [Preprocess, h, hw, if_true]

theorem driver_open_failures_witness :
    Preprocess ⟨[], []⟩ true 4 "previous content" "missing.cpp" "out.txt" [] =
      ⟨"previous content", false, false, [inputErrMsg "missing.cpp"], false, true⟩ :=
  (driver_open_failures ⟨[], []⟩ true 4 "previous content" "missing.cpp"
    "out.txt" []).1 (by decide)

/-- C8: calling the expander on a file that cannot be opened returns
failure; the diagnostic naming the file's basename and the referencing
location is printed exactly when the referencing context is non-empty,
hence never for the initial top-level file, which is invoked with an
empty referencing context. -/
theorem unopenable_file_diag (fs : FS) (dirs : List String) (fuel : Nat)
    (f src : String) (l : Nat) (h : fs.readFile f = none) :
    ProcessInclude fs dirs (fuel + 1) f src l =
      ⟨[], if src = "" then [] else [diagMsg (fileName f) src l], false, true⟩ := by
  simp only [ProcessInclude, h]

theorem unopenable_file_diag_witness :
    (ProcessInclude ⟨[], ["d/gone.h"]⟩ [] 3 "d/gone.h" "a.cpp" 7 =
      ⟨[], [diagMsg "gone.h" "a.cpp" 7], false, true⟩) ∧
    (ProcessInclude ⟨[], ["d/gone.h"]⟩ [] 3 "d/gone.h" "" 0 =
      ⟨[], [], false, true⟩) := by
  constructor
  · rw [unopenable_file_diag ⟨[], ["d/gone.h"]⟩ [] 2 "d/gone.h" "a.cpp" 7 (by decide)]
    decide
  · rw [unopenable_file_diag ⟨[], ["d/gone.h"]⟩ [] 2 "d/gone.h" "" 0 (by decide)]
    decide

/-- C10: a readable but empty file expands successfully and appends
nothing: the call returns `true`, prints nothing and contributes no
output lines, so an empty included file does not abort the enclosing
expansion. -/
theorem empty_file_expansion (fs : FS) (dirs : List String) (fuel : Nat)
    (f src : String) (l : Nat) (h : fs.readFile f = some "") :
    ProcessInclude fs dirs (fuel + 1) f src l = ⟨[], [], true, true⟩ := by
  simp only [ProcessInclude, h]
  rfl

theorem empty_file_expansion_witness :
    ProcessInclude ⟨[("empty.h", "")], ["empty.h"]⟩ [] 6 "empty.h" "a.cpp" 3 =
      ⟨[], [], true, true⟩ :=
  empty_file_expansion ⟨[("empty.h", "")], ["empty.h"]⟩ [] 5 "empty.h" "a.cpp" 3 (by decide)

theorem joinLinesC_cons (l : List Char) (ls : List (List Char)) :
    joinLinesC (l :: ls) = l ++ '\n' :: joinLinesC ls := rfl

theorem splitLinesC_eq_nil {cs : List Char} (h : splitLinesC cs = []) : cs = [] := by
  cases cs with
  | nil => rfl
  | cons c cs =>
    exfalso
    simp only [splitLinesC] at h
    split at h
    · exact absurd h (List.cons_ne_nil _ _)
    · split at h <;> exact absurd h (List.cons_ne_nil _ _)

theorem specNormalizeC_cons (c : Char) (cs : List Char) (h : cs ≠ []) :
    specNormalizeC (c :: cs) = c :: specNormalizeC cs := by
  obtain ⟨d, ds, rfl⟩ := List.exists_cons_of_ne_nil h
  simp only [specNormalizeC, List.getLast?_cons_cons, List.cons_ne_nil, if_false,
    reduceCtorEq]
  split
  · rfl
  · simp

theorem joinC_splitC (cs : List Char) :
    joinLinesC (splitLinesC cs) = specNormalizeC cs := by
  induction cs with
  | nil => rfl
  | cons c cs ih =>
    by_cases hc : c = '\n'
    · subst hc
      rw [show splitLinesC ('\n' :: cs) = [] :: splitLinesC cs from by simp [splitLinesC],
        joinLinesC_cons, List.nil_append, ih]
      cases cs with
      | nil => rfl
      | cons d ds => exact (specNormalizeC_cons '\n' (d :: ds) (List.cons_ne_nil d ds)).symm
    · cases h0 : splitLinesC cs with
      | nil =>
        have := splitLinesC_eq_nil h0
        subst this
        simp [splitLinesC, joinLinesC, specNormalizeC, hc]
      | cons l ls =>
        have hne : cs ≠ [] := by
          intro hcs; rw [hcs] at h0; exact absurd h0.symm (List.cons_ne_nil _ _)
        have h2 : splitLinesC (c :: cs) = (c :: l) :: ls := by
          simp only [splitLinesC, hc, if_false, h0, reduceCtorEq]
        rw [h2, joinLinesC_cons, specNormalizeC_cons _ _ hne, ← ih, h0,
          joinLinesC_cons, List.cons_append]

theorem joinLines_splitLinesCpp (s : String) :
    joinLines (splitLinesCpp s) = specNormalize s := by
  simp only [joinLines, splitLinesCpp, specNormalize, List.map_map]
  have hmap : List.map (String.data ∘ fun l => String.mk l) (splitLinesC s.data) =
      splitLinesC s.data := by
    rw [show (String.data ∘ fun l => String.mk l) = id from rfl, List.map_id]
  rw [hmap, joinC_splitC]

theorem processLines_all_plain (step : String → String → Nat → Result)
    (fs : FS) (dirs : List String) (curFile : String) :
    ∀ lines n, (∀ l ∈ lines, classify l = Directive.plainText) →
      processLinesWith step fs dirs curFile lines n = ⟨lines, [], true, true⟩ := by
  intro lines
  induction lines with
  | nil => intro n _; rfl
  | cons l ls ih =>
    intro n h
    have hl : classify l = Directive.plainText := h l (by simp)
    simp only [processLinesWith, hl, ih (n + 1) (fun x hx => h x (by simp [hx]))]

/-- C9: for an input file without directive lines, the run succeeds and
the output file content is the input content line for line, every line
terminator normalized to exactly one newline, a final unterminated line
included. -/
theorem no_directive_identity (fs : FS) (fuel : Nat) (prev inF outF : String)
    (dirs : List String) (content : String)
    (h : fs.readFile inF = some content)
    (hp : ∀ l ∈ splitLinesCpp content, classify l = Directive.plainText) :
    Preprocess fs true (fuel + 1) prev inF outF dirs =
      ⟨specNormalize content, true, true, [], true, true⟩ := by
  simp only [Preprocess, h, if_true, ProcessInclude,
    processLines_all_plain (ProcessInclude fs dirs fuel) fs dirs inF
      (splitLinesCpp content) 1 hp]
  rw [joinLines_splitLinesCpp]

theorem no_directive_identity_witness :
    Preprocess ⟨[("p.txt", "x\ny")], []⟩ true 1 "old stuff" "p.txt" "o.txt" [] =
      ⟨"x\ny\n", true, true, [], true, true⟩ := by
  rw [no_directive_identity ⟨[("p.txt", "x\ny")], []⟩ 0 "old stuff" "p.txt" "o.txt"
    [] "x\ny" (by decide) (by decide)]
  decide

theorem processLines_ok_no_diags (step : String → String → Nat → Result)
    (fs : FS) (dirs : List String) (curFile : String)
    (hstep : ∀ f s k, (step f s k).ok = true → (step f s k).diags = []) :
    ∀ lines n, (processLinesWith step fs dirs curFile lines n).ok = true →
      (processLinesWith step fs dirs curFile lines n).diags = [] := by
  intro lines
  induction lines with
  | nil => intro n _; rfl
  | cons l ls ih =>
    intro n h
    cases hc : classify l with
    | plainText =>
      simp only [processLinesWith, hc] at h ⊢
      exact ih (n + 1) h
    | localInc name =>
      cases hr : resolveLocal fs (parentPath curFile) name dirs with
      | none =>
        simp only [processLinesWith, hc, hr] at h
        exact Bool.noConfusion h
      | some fp =>
        cases hok : (step fp curFile n).ok with
        | false =>
          simp only [processLinesWith, hc, hr, hok, Bool.false_eq_true, if_false] at h
        | true =>
          simp only [processLinesWith, hc, hr, hok, if_true] at h ⊢
          rw [hstep fp curFile n hok, ih (n + 1) h, List.nil_append]
    | globalInc name =>
      cases hr : resolveGlobal fs name dirs with
      | none =>
        simp only [processLinesWith, hc, hr] at h
        exact Bool.noConfusion h
      | some fp =>
        cases hok : (step fp curFile n).ok with
        | false =>
          simp only [processLinesWith, hc, hr, hok, Bool.false_eq_true, if_false] at h
        | true =>
          simp only [processLinesWith, hc, hr, hok, if_true] at h ⊢
          rw [hstep fp curFile n hok, ih (n + 1) h, List.nil_append]

theorem ProcessInclude_ok_no_diags (fs : FS) (dirs : List String) :
    ∀ fuel curFile srcFile srcLine,
      (ProcessInclude fs dirs fuel curFile srcFile srcLine).ok = true →
      (ProcessInclude fs dirs fuel curFile srcFile srcLine).diags = [] := by
  intro fuel
  induction fuel with
  | zero => intro _ _ _ h; exact Bool.noConfusion h
  | succ fuel ih =>
    intro curFile srcFile srcLine h
    cases hr : fs.readFile curFile with
    | none =>
      simp only [ProcessInclude, hr] at h
      exact Bool.noConfusion h
    | some content =>
      simp only [ProcessInclude, hr] at h ⊢
      exact processLines_ok_no_diags (ProcessInclude fs dirs fuel) fs dirs curFile
        (fun f s k => ih f s k) (splitLinesCpp content) 1 h

theorem processLines_fail_one_diag (step : String → String → Nat → Result)
    (fs : FS) (dirs : List String) (curFile : String)
    (hstep0 : ∀ f s k, (step f s k).ok = true → (step f s k).diags = [])
    (hstep : ∀ f s k, s ≠ "" → (step f s k).fuelOk = true → (step f s k).ok = false →
      ∃ a b m, (step f s k).diags = [diagMsg a b m])
    (hcur : curFile ≠ "") :
    ∀ lines n, (processLinesWith step fs dirs curFile lines n).fuelOk = true →
      (processLinesWith step fs dirs curFile lines n).ok = false →
      ∃ a b m, (processLinesWith step fs dirs curFile lines n).diags = [diagMsg a b m] := by
  intro lines
  induction lines with
  | nil => intro n _ h; exact Bool.noConfusion h
  | cons l ls ih =>
    intro n hf ho
    cases hc : classify l with
    | plainText =>
      simp only [processLinesWith, hc] at hf ho ⊢
      exact ih (n + 1) hf ho
    | localInc name =>
      cases hr : resolveLocal fs (parentPath curFile) name dirs with
      | none =>
        simp only [processLinesWith, hc, hr]
        exact ⟨name, curFile, n, rfl⟩
      | some fp =>
        cases hok : (step fp curFile n).ok with
        | false =>
          simp only [processLinesWith, hc, hr, hok, Bool.false_eq_true, if_false] at hf ⊢
          exact hstep fp curFile n hcur hf hok
        | true =>
          simp only [processLinesWith, hc, hr, hok, if_true, Bool.and_eq_true] at hf ho ⊢
          rw [hstep0 fp curFile n hok, List.nil_append]
          exact ih (n + 1) hf.2 ho
    | globalInc name =>
      cases hr : resolveGlobal fs name dirs with
      | none =>
        simp only [processLinesWith, hc, hr]
        exact ⟨name, curFile, n, rfl⟩
      | some fp =>
        cases hok : (step fp curFile n).ok with
        | false =>
          simp only [processLinesWith, hc, hr, hok, Bool.false_eq_true, if_false] at hf ⊢
          exact hstep fp curFile n hcur hf hok
        | true =>
          simp only [processLinesWith, hc, hr, hok, if_true, Bool.and_eq_true] at hf ho ⊢
          rw [hstep0 fp curFile n hok, List.nil_append]
          exact ih (n + 1) hf.2 ho

theorem ProcessInclude_fail_one_diag (fs : FS) (dirs : List String) :
    ∀ fuel curFile srcFile srcLine,
      (ProcessInclude fs dirs fuel curFile srcFile srcLine).fuelOk = true →
      (ProcessInclude fs dirs fuel curFile srcFile srcLine).ok = false →
      (srcFile = "" → (fs.readFile curFile).isSome) →
      ∃ a b m,
        (ProcessInclude fs dirs fuel curFile srcFile srcLine).diags = [diagMsg a b m] := by
  intro fuel
  induction fuel with
  | zero => intro _ _ _ hf _ _; exact Bool.noConfusion hf
  | succ fuel ih =>
    intro curFile srcFile srcLine hf ho hsrc
    cases hr : fs.readFile curFile with
    | none =>
      have hs : srcFile ≠ "" := by
        intro he
        have := hsrc he
        rw [hr] at this
        exact absurd this (by decide)
      simp only [ProcessInclude, hr, hs, if_false, if_neg hs]
      exact ⟨fileName curFile, srcFile, srcLine, rfl⟩
    | some content =>
      have hcur : curFile ≠ "" := by
        intro he
        rw [he] at hr
        simp [FS.readFile] at hr
      simp only [ProcessInclude, hr] at hf ho ⊢
      exact processLines_fail_one_diag (ProcessInclude fs dirs fuel) fs dirs curFile
        (fun f s k => ProcessInclude_ok_no_diags fs dirs fuel f s k)
        (fun f s k hs hfk hok => ih f s k hfk hok (fun he => absurd he hs))
        hcur (splitLinesCpp content) 1 hf ho

/-- C2: in every failing run in which the expander was invoked (and the
model did not run out of fuel), exactly one diagnostic line of the
`unknown include file ... at file ... at line ...` shape is written to
standard output: it is printed at the deepest failing directive and the
boolean failure then propagates up through the enclosing recursive calls
without any further diagnostic. -/
theorem single_diagnostic_per_failure (fs : FS) (outW : Bool) (fuel : Nat)
    (prev inF outF : String) (dirs : List String)
    (hI : (Preprocess fs outW fuel prev inF outF dirs).invoked = true)
    (hF : (Preprocess fs outW fuel prev inF outF dirs).fuelOk = true)
    (hO : (Preprocess fs outW fuel prev inF outF dirs).ok = false) :
    ∃ a b m, (Preprocess fs outW fuel prev inF outF dirs).diags = [diagMsg a b m] := by
  cases hr : fs.readFile inF with
  | none => simp only [Preprocess, hr] at hI; exact absurd hI (by decide)
  | some content =>
    cases hw : outW with
    | false =>
      subst hw
      simp only [Preprocess, hr, Bool.false_eq_true, if_false] at hI
    | true =>
      subst hw
      simp only [Preprocess, hr, if_true] at hF hO ⊢
      exact ProcessInclude_fail_one_diag fs dirs fuel inF "" 0 hF hO
        (fun _ => by rw [hr]; rfl)

theorem single_diagnostic_per_failure_witness :
    ∃ a b m, (Preprocess fsB true 5 "" "a.cpp" "o.txt" []).diags = [diagMsg a b m] :=
  single_diagnostic_per_failure fsB true 5 "" "a.cpp" "o.txt" []
    (by decide) (by decide) (by decide)

theorem dropLit_sound : ∀ (ls cs rest : List Char),
    dropLit ls cs = some rest → cs = ls ++ rest := by
  intro ls
  induction ls with
  | nil =>
    intro cs rest h
    simp only [dropLit, Option.some.injEq] at h
    rw [h, List.nil_append]
  | cons l ls ih =>
    intro cs rest h
    cases cs with
    | nil => exact absurd h (by simp [dropLit])
    | cons x xs =>
      simp only [dropLit] at h
      by_cases hx : x = l
      · rw [if_pos hx] at h
        subst hx
        rw [List.cons_append]
        exact congrArg (List.cons x) (ih xs rest h)
      · rw [if_neg hx] at h
        exact absurd h (by simp)

theorem dropLit_self : ∀ (ls rest : List Char), dropLit ls (ls ++ rest) = some rest := by
  intro ls
  induction ls with
  | nil => intro rest; rfl
  | cons l ls ih => intro rest; simp [List.cons_append, dropLit, ih]

theorem dropWhile_ws_append (w : List Char) (hw : WsList w) (l : List Char) :
    (w ++ l).dropWhile isWs = l.dropWhile isWs := by
  induction w with
  | nil => rfl
  | cons x xs ih =>
    rw [List.cons_append, List.dropWhile_cons, if_pos (hw x (by simp))]
    exact ih (fun y hy => hw y (by simp [hy]))

theorem dropWhile_cons_neg {p : Char → Bool} {x : Char} (h : p x = false)
    (xs : List Char) : (x :: xs).dropWhile p = x :: xs := by
  rw [List.dropWhile_cons, h, if_neg (by simp)]

theorem dropWhile_eq_cons_head {p : Char → Bool} :
    ∀ {l : List Char} {x : Char} {xs : List Char},
      l.dropWhile p = x :: xs → p x = false := by
  intro l
  induction l with
  | nil => intro x xs h; exact absurd h (by simp)
  | cons y ys ih =>
    intro x xs h
    rw [List.dropWhile_cons] at h
    by_cases hy : p y
    · rw [if_pos hy] at h; exact ih h
    · rw [if_neg hy] at h
      obtain ⟨rfl, -⟩ := List.cons.inj h
      exact Bool.of_not_eq_true hy

theorem takeWhile_no_delim (c : Char) (name post : List Char)
    (h : ∀ x ∈ name, x ≠ c) :
    (name ++ c :: post).takeWhile (fun x => x ≠ c) = name := by
  induction name with
  | nil => simp [List.takeWhile_cons]
  | cons x xs ih =>
    rw [List.cons_append, List.takeWhile_cons, if_pos (by simp [h x (by simp)])]
    exact congrArg (List.cons x) (ih (fun y hy => h y (by simp [hy])))

theorem dropWhile_no_delim (c : Char) (name post : List Char)
    (h : ∀ x ∈ name, x ≠ c) :
    (name ++ c :: post).dropWhile (fun x => x ≠ c) = c :: post := by
  induction name with
  | nil => simp [List.dropWhile_cons]
  | cons x xs ih =>
    rw [List.cons_append, List.dropWhile_cons, if_pos (by simp [h x (by simp)])]
    exact ih (fun y hy => h y (by simp [hy]))

theorem matchAfterHash_sound (o c : Char) (cs name : List Char)
    (h : matchAfterHash o c cs = some name) :
    ∃ w1 w2 post, cs = w1 ++ (includeChars ++ (w2 ++ o :: (name ++ c :: post))) ∧
      WsList w1 ∧ WsList w2 ∧ ∀ x ∈ name, x ≠ c := by
  unfold matchAfterHash at h
  cases h1 : dropLit includeChars (cs.dropWhile isWs) with
  | none => rw [h1] at h; exact absurd h (by simp)
  | some cs2 =>
    simp only [h1] at h
    cases h2 : cs2.dropWhile isWs with
    | nil => simp only [h2] at h; exact Option.noConfusion h
    | cons d cs4 =>
      simp only [h2] at h
      by_cases hd : d = o
      · rw [if_pos hd] at h
        cases h3 : cs4.dropWhile (fun x => x ≠ c) with
        | nil => simp only [h3] at h; exact Option.noConfusion h
        | cons y post =>
          simp only [h3, Option.some.injEq] at h
          have hy : y = c := by
            have := dropWhile_eq_cons_head h3
            simpa using this
          have hname : ∀ x ∈ name, x ≠ c := by
            intro x hx
            have hx2 : x ∈ cs4.takeWhile (fun x => x ≠ c) := by rw [h]; exact hx
            simpa using List.mem_takeWhile_imp hx2
          have hcs4 : cs4 = name ++ c :: post := by
            conv_lhs => rw [← List.takeWhile_append_dropWhile (fun x => x ≠ c) cs4]
            rw [h, h3, hy]
          refine ⟨cs.takeWhile isWs, cs2.takeWhile isWs, post, ?_, ?_, ?_, hname⟩
          · calc cs = cs.takeWhile isWs ++ cs.dropWhile isWs :=
                  (List.takeWhile_append_dropWhile isWs cs).symm
              _ = cs.takeWhile isWs ++ (includeChars ++ cs2) := by
                  rw [dropLit_sound includeChars (cs.dropWhile isWs) cs2 h1]
              _ = cs.takeWhile isWs ++
                  (includeChars ++ (cs2.takeWhile isWs ++ cs2.dropWhile isWs)) := by
                  rw [List.takeWhile_append_dropWhile]
              _ = cs.takeWhile isWs ++
                  (includeChars ++ (cs2.takeWhile isWs ++ (o :: (name ++ c :: post)))) := by
                  rw [h2, ← hd, ← hcs4]
          · intro x hx; exact List.mem_takeWhile_imp hx
          · intro x hx; exact List.mem_takeWhile_imp hx
      · rw [if_neg hd] at h
        exact absurd h (by simp)

theorem matchAfterHash_complete (o c : Char) (w1 w2 name post : List Char)
    (hw1 : WsList w1) (hw2 : WsList w2) (ho : isWs o = false)
    (hname : ∀ x ∈ name, x ≠ c) :
    matchAfterHash o c (w1 ++ (includeChars ++ (w2 ++ o :: (name ++ c :: post)))) =
      some name := by
  have hinc : (includeChars ++ (w2 ++ o :: (name ++ c :: post))).dropWhile isWs =
      includeChars ++ (w2 ++ o :: (name ++ c :: post)) :=
    dropWhile_cons_neg (by decide) _
  have h1 : (w1 ++ (includeChars ++ (w2 ++ o :: (name ++ c :: post)))).dropWhile isWs =
      includeChars ++ (w2 ++ o :: (name ++ c :: post))  := by
    rw [dropWhile_ws_append w1 hw1, hinc]
  have h3 : (w2 ++ o :: (name ++ c :: post)).dropWhile isWs =
      o :: (name ++ c :: post) := by
    rw [dropWhile_ws_append w2 hw2]
    exact dropWhile_cons_neg ho _
  unfold matchAfterHash
  rw [h1]
  simp only [dropLit_self, h3, eq_self_iff_true, if_true,
    dropWhile_no_delim c name post hname, takeWhile_no_delim c name post hname]

theorem scanFor_of_hash (o c : Char) :
    ∀ (pre tail name : List Char), matchAfterHash o c tail = some name →
      ∃ m, scanFor o c (pre ++ '#' :: tail) = some m := by
  intro pre
  induction pre with
  | nil =>
    intro tail name h
    exact ⟨name, by simp [scanFor, h]⟩
  | cons x xs ih =>
    intro tail name h
    rw [List.cons_append]
    by_cases hx : x = '#'
    · subst hx
      cases hm : matchAfterHash o c (xs ++ '#' :: tail) with
      | some m => exact ⟨m, by simp [scanFor, hm]⟩
      | none =>
        obtain ⟨m, hm2⟩ := ih tail name h
        exact ⟨m, by simp [scanFor, hm, hm2]⟩
    · obtain ⟨m, hm2⟩ := ih tail name h
      exact ⟨m, by simp [scanFor, hx, hm2]⟩

theorem scanFor_sound (o c : Char) :
    ∀ (cs name : List Char), scanFor o c cs = some name →
      ∃ pre tail, cs = pre ++ '#' :: tail ∧ matchAfterHash o c tail = some name := by
  intro cs
  induction cs with
  | nil => intro name h; exact absurd h (by simp [scanFor])
  | cons x xs ih =>
    intro name h
    by_cases hx : x = '#'
    · subst hx
      cases hm : matchAfterHash o c xs with
      | some m =>
        have hmn : m = name := by
          simpa only [scanFor, if_pos rfl, hm, if_true, Option.some.injEq] using h
        subst hmn
        exact ⟨[], xs, rfl, hm⟩
      | none =>
        have h2 : scanFor o c xs = some name := by
          simpa only [scanFor, if_pos rfl, hm, if_true] using h
        obtain ⟨pre, tail, heq, hm2⟩ := ih name h2
        exact ⟨'#' :: pre, tail, by rw [heq, List.cons_append], hm2⟩
    · have h2 : scanFor o c xs = some name := by
        simpa only [scanFor, if_neg hx] using h
      obtain ⟨pre, tail, heq, hm2⟩ := ih name h2
      exact ⟨x :: pre, tail, by rw [heq, List.cons_append], hm2⟩

theorem scanFor_iff (o c : Char) (ho : isWs o = false) (cs : List Char) :
    (∃ m, scanFor o c cs = some m) ↔ DirectiveSomewhere o c cs := by
  constructor
  · rintro ⟨m, hm⟩
    obtain ⟨pre, tail, rfl, hmatch⟩ := scanFor_sound o c cs m hm
    obtain ⟨w1, w2, post, htail, hw1, hw2, hname⟩ :=
      matchAfterHash_sound o c tail m hmatch
    exact ⟨pre, w1, w2, m, post, by rw [htail], hw1, hw2, hname⟩
  · rintro ⟨pre, w1, w2, name, post, rfl, hw1, hw2, hname⟩
    exact scanFor_of_hash o c pre _ name
      (matchAfterHash_complete o c w1 w2 name post hw1 hw2 ho hname)

/-- C1 (amended): the Directive Matcher uses an unanchored substring
search, not an anchored whole-line match.  A line is classified `Local`
exactly when the quoted include pattern occurs anywhere in it; it is
classified `Global` exactly when the quoted pattern occurs nowhere but
the angle-bracket pattern occurs somewhere (the local pattern is checked
first); it is `PlainText` exactly when neither pattern occurs anywhere.
Additional non-whitespace content before the `#` or after the closing
delimiter does not force a `PlainText` classification. -/
theorem classify_unanchored_search (line : String) :
    ((∃ n, classify line = Directive.localInc n) ↔
      DirectiveSomewhere '"' '"' line.data) ∧
    ((∃ n, classify line = Directive.globalInc n) ↔
      (¬ DirectiveSomewhere '"' '"' line.data ∧
        DirectiveSomewhere '<' '>' line.data)) ∧
    (classify line = Directive.plainText ↔
      (¬ DirectiveSomewhere '"' '"' line.data ∧
        ¬ DirectiveSomewhere '<' '>' line.data)) := by
  have hL := scanFor_iff '"' '"' (by decide) line.data
  have hG := scanFor_iff '<' '>' (by decide) line.data
  unfold classify
  cases hq : scanFor '"' '"' line.data with
  | some n =>
    have hdl : DirectiveSomewhere '"' '"' line.data := hL.mp ⟨n, hq⟩
    refine ⟨⟨fun _ => hdl, fun _ => ⟨String.mk n, rfl⟩⟩, ?_, ?_⟩
    · constructor
      · rintro ⟨m, hm⟩; exact absurd hm (by simp)
      · rintro ⟨hnd, _⟩; exact absurd hdl hnd
    · constructor
      · intro hm; exact absurd hm (by simp)
      · rintro ⟨hnd, _⟩; exact absurd hdl hnd
  | none =>
    have hndl : ¬ DirectiveSomewhere '"' '"' line.data := by
      intro hd
      obtain ⟨m, hm⟩ := hL.mpr hd
      rw [hq] at hm
      exact Option.noConfusion hm
    cases hg : scanFor '<' '>' line.data with
    | some n =>
      have hdg : DirectiveSomewhere '<' '>' line.data := hG.mp ⟨n, hg⟩
      refine ⟨?_, ⟨fun _ => ⟨hndl, hdg⟩, fun _ => ⟨String.mk n, rfl⟩⟩, ?_⟩
      · constructor
        · rintro ⟨m, hm⟩; exact absurd hm (by simp)
        · intro hd; exact absurd hd hndl
      · constructor
        · intro hm; exact absurd hm (by simp)
        · rintro ⟨_, hng⟩; exact absurd hdg hng
    | none =>
      have hndg : ¬ DirectiveSomewhere '<' '>' line.data := by
        intro hd
        obtain ⟨m, hm⟩ := hG.mpr hd
        rw [hg] at hm
        exact Option.noConfusion hm
      refine ⟨?_, ?_, ⟨fun _ => ⟨hndl, hndg⟩, fun _ => rfl⟩⟩
      · constructor
        · rintro ⟨m, hm⟩; exact absurd hm (by simp)
        · intro hd; exact absurd hd hndl
      · constructor
        · rintro ⟨m, hm⟩; exact absurd hm (by simp)
        · rintro ⟨_, hg2⟩; exact absurd hg2 hndg

/-- C1 counterexample: a line with non-whitespace content before the `#`
(and hence not matching the anchored whole-line pattern) is nevertheless
classified as a `Local` directive by the code, not as `PlainText`, because
`regex_search` accepts a match anywhere in the line. -/
theorem classify_counterexample :
    classify "int x = 0; #include \"a.h\"" = Directive.localInc "a.h" ∧
    classify "int x = 0; #include \"a.h\"" ≠ Directive.plainText := by
  constructor
  · decide
  · decide
